import Mathlib

/-!
Verification of the file-collection-and-export pipeline of `main.py`.

The Python program walks a directory tree (`process_folder`), filters files by a
fixed extension allow-list (`EXTENSIONS`), optionally reformats each file in
place with an external tool (`format_code`), loads file text (`get_code`), and
emits either one combined document or one document per file, in PDF
(`pdf_from_files`) or plain-text (`txt_from_files`) form.

Modelling choices, all taken from the source:
* The filesystem is a finite rose tree (`FSTree`).  A file is a name together
  with `Option String`: `some c` is a file whose UTF-8 read succeeds with text
  `c`, `none` is a file whose read or decode raises (the situation handled by
  `get_code`'s `except` branch).
* `os.walk` is modelled by `walk`: it yields the root directory first and then
  recurses into subdirectories in their listed order; the code sorts the file
  names of each directory itself (`sorted(files)`), which we model with
  insertion sort over the code-point lexicographic order - the same order
  Python `sorted` uses on `str`, and on a list of distinct names any correct
  sort returns the same list.  A nonexistent root is `Option.none` tree:
  `os.walk` then yields nothing and raises nothing.
* External formatter processes (`subprocess.run`) are an oracle
  `ToolEnv`: for a command name and file path it returns the outcome of the
  invocation (`FileNotFoundError`, a failing exit taken as an exception by
  `check=True`, or success with the rewritten file content).
* `str.lower` is modelled per character with `Char.toLower`; it agrees with
  Python on all ASCII data, which covers the whole allow-list.
* The reportlab calls are modelled by the `Flowable` story list the code
  builds; `Spacer(1, 0.2*inch)` carries no data we reason about.
* Writing an output file is recorded as a `(file name, document)` pair in
  order; `applyWrites` models the directory state after the run, where opening
  an existing name with mode "w" overwrites it (last write wins).
-/

/-- Lexicographic comparison of char lists by code point, `true` iff `as ≤ bs`.
This is the order Python string comparison uses; defined by structural
recursion so that the kernel can evaluate it on concrete data. -/
def charsLe : List Char → List Char → Bool
  | [], _ => true
  | _ :: _, [] => false
  | a :: as, b :: bs => if a < b then true else if b < a then false else charsLe as bs

/-- Comparison `a ≤ b` on strings, as a computable Bool. -/
def strLe (a b : String) : Bool := charsLe a.data b.data

/-- Python `sorted` on a list of strings. -/
def pySorted (l : List String) : List String :=
  List.insertionSort (fun a b => strLe a b = true) l

/-- Python `str.lower`, per character (faithful on ASCII; the allow-list and
every extension the program compares against it are ASCII). -/
def lowerStr (s : String) : String := String.mk (s.data.map Char.toLower)

/-- Helper for `splitLines`: accumulates the current line (reversed). -/
def splitLinesAux : List Char → List Char → List String
  | [], acc => [String.mk acc.reverse]
  | c :: rest, acc =>
    if c = '\n' then String.mk acc.reverse :: splitLinesAux rest []
    else splitLinesAux rest (c :: acc)

/-- Python `str.split("\n")`: `"" ↦ [""]`, `"a\n" ↦ ["a", ""]`. -/
def splitLines (s : String) : List String := splitLinesAux s.data []

/-- Python `line.replace(" ", "&nbsp;")` (single-character pattern, so it is a
per-character substitution). -/
def nbspLine (s : String) : String :=
  String.mk (s.data.flatMap (fun c => if c = ' ' then "&nbsp;".data else [c]))

/-- Python `pathlib.PurePath.name`: the part of the path after the last `/`.  The
program only applies it to paths whose final component is a plain file name. -/
def pyName (p : String) : String :=
  String.mk ((p.data.reverse.takeWhile (fun c => c ≠ '/')).reverse)

/-- Index of the last `.` in a char list, counting from `i` at the head. -/
def lastDotIdx : List Char → Nat → Option Nat
  | [], _ => none
  | c :: rest, i =>
    match lastDotIdx rest (i + 1) with
    | some j => some j
    | none => if c = '.' then some i else none

/-- Python `pathlib` suffix of a bare file name, as chars: the part from the last dot,
provided that dot is neither the first nor the last character of the name. -/
def nameSuffix (n : List Char) : List Char :=
  match lastDotIdx n 0 with
  | none => []
  | some i => if 0 < i ∧ i + 1 < n.length then n.drop i else []

/-- Python `Path(p).suffix`. -/
def pySuffix (p : String) : String := String.mk (nameSuffix (pyName p).data)

/-- Python `Path(p).stem`: the file name with its suffix removed. -/
def pyStem (p : String) : String :=
  let n := (pyName p).data
  String.mk (n.take (n.length - (nameSuffix n).length))

/-- The fixed extension allow-list of `main.py` (a Python set; membership is
all the program uses, so a list with `contains` is an equivalent model). -/
def EXTENSIONS : List String :=
  [".py", ".c", ".h", ".yaml", ".yml", ".cpp", ".java", ".txt", ".json"]

/-- The filter `Path(file).suffix.lower() in EXTENSIONS`. -/
def matchesExt (name : String) : Bool := EXTENSIONS.contains (lowerStr (pySuffix name))

/-- One directory entry that is a regular file: its name and the result of
reading its text (`none`: the read or UTF-8 decode raises). -/
structure FileEntry where
  name : String
  content : Option String
deriving DecidableEq, Repr

mutual

/-- A directory tree: the regular files of this directory and its
subdirectories, the latter in the order the underlying filesystem walk
reports them. -/
inductive FSTree where
  | node (files : List FileEntry) (subdirs : DirList)

/-- The named subdirectories of a directory. -/
inductive DirList where
  | nil
  | cons (name : String) (tree : FSTree) (rest : DirList)

end

/-- Names of the subdirectories, in walk order. -/
def dirNames : DirList → List String
  | .nil => []
  | .cons n _ rest => n :: dirNames rest

mutual

/-- Python `os.walk(root)`: yields `(root, files)` for the root first, then walks each
subdirectory; subdirectory paths are built like `os.path.join`. -/
def walk (root : String) : FSTree → List (String × List FileEntry)
  | .node files subs => (root, files) :: walkDirs root subs

/-- Walk a list of subdirectories of `root` in order. -/
def walkDirs (root : String) : DirList → List (String × List FileEntry)
  | .nil => []
  | .cons n t rest => walk (root ++ "/" ++ n) t ++ walkDirs root rest

end

/-- Python `os.walk` on a path that may not exist: on a nonexistent root it yields
nothing and raises nothing. -/
def os_walk (root : String) : Option FSTree → List (String × List FileEntry)
  | none => []
  | some t => walk root t

/-- Executable no-duplicates check on a list of strings. -/
def nodupB : List String → Bool
  | [] => true
  | n :: rest => !(rest.contains n) && nodupB rest

/-- Executable validity of a path component: nonempty and free of `/` - what
holds of every real directory entry name. -/
def validNameB (n : String) : Bool := !(n == "") && !(n.data.contains '/')

mutual

/-- Well-formedness of a tree as a picture of a real filesystem: within each
directory, file names are distinct, subdirectory names are distinct, and every
name is a valid path component. -/
def WFb : FSTree → Bool
  | .node files subs =>
    nodupB (files.map FileEntry.name) && nodupB (dirNames subs) &&
    (files.map FileEntry.name).all validNameB && WFbDirs subs

/-- Well-formedness of a subdirectory list. -/
def WFbDirs : DirList → Bool
  | .nil => true
  | .cons n t rest => validNameB n && WFb t && WFbDirs rest

end

mutual

/-- Specification-side enumeration of all regular files in a tree: each with
the list of directory names leading to it from the root. -/
def treeFiles : FSTree → List (List String × FileEntry)
  | .node files subs => files.map (fun fe => ([], fe)) ++ dirFiles subs

/-- Files in a subdirectory list, tagged with their directory paths. -/
def dirFiles : DirList → List (List String × FileEntry)
  | .nil => []
  | .cons n t rest => (treeFiles t).map (fun e => (n :: e.1, e.2)) ++ dirFiles rest

end

/-- The path of the directory `ds` below `root`, joined with `/` like the
chained `os.path.join` of the walk. -/
def joinDirs (root : String) (ds : List String) : String :=
  List.foldl (fun acc d => acc ++ "/" ++ d) root ds

/-- Full path of file `n` in directory `ds` below `root`. -/
def joinPath (root : String) (ds : List String) (n : String) : String :=
  joinDirs root ds ++ "/" ++ n

/-- Per directory, the file names the loop keeps: `sorted(files)` filtered by
the extension allow-list, in that order. -/
def dirFileNames (files : List FileEntry) : List String :=
  (pySorted (files.map FileEntry.name)).filter (fun n => matchesExt n)

/-- Reading a named file of a directory (filesystem lookup by name). -/
def lookupContent (files : List FileEntry) (n : String) : Option String :=
  match files.find? (fun fe => fe.name == n) with
  | some fe => fe.content
  | none => none

/-- The collection loop of `process_folder` without the beautify step: the
kept files in traversal order, each path paired with the text a later read of
it returns. -/
def pure_entries (root : String) (ft : Option FSTree) : List (String × Option String) :=
  (os_walk root ft).flatMap
    (fun q => (dirFileNames q.2).map (fun n => (q.1 ++ "/" ++ n, lookupContent q.2 n)))

/-- The `file_list` of paths as built by `process_folder`. -/
def file_list (root : String) (ft : Option FSTree) : List String :=
  (pure_entries root ft).map Prod.fst

/-- Outcome of one `subprocess.run` of an external formatter on a file:
the executable is missing (`FileNotFoundError`), it exits with failure
(`check=True` raises, message `msg`), or it succeeds having rewritten the file
so that a later read returns `newContent`. -/
inductive ToolOutcome where
  | notInstalled
  | failed (msg : String)
  | ok (newContent : Option String)

/-- The host environment: what happens when command `cmd` is run on `path`. -/
def ToolEnv := String → String → ToolOutcome

/-- The extension-group dispatch of `format_code`: which external command the
code would run for this path, if any. -/
def formatterFor (path : String) : Option String :=
  let ext := lowerStr (pySuffix path)
  if ext = ".py" then some "black"
  else if ext = ".c" ∨ ext = ".h" ∨ ext = ".cpp" then some "clang-format"
  else if ext = ".yaml" ∨ ext = ".yml" ∨ ext = ".json" then some "prettier"
  else none

/-- Model of `format_code(file_path)` acting on a file whose current read-result is
`content`: returns the read-result of the file afterwards, the diagnostics
printed, and the external invocations performed.  Both `except` arms leave the
file untouched and only print. -/
def format_code (env : ToolEnv) (path : String) (content : Option String) :
    Option String × List String × List (String × String) :=
  match formatterFor path with
  | none => (content, [], [])
  | some cmd =>
    match env cmd path with
    | .notInstalled =>
      (content, ["Formatter not installed for " ++ path ++ ". Skipping."], [(cmd, path)])
    | .failed msg =>
      (content, ["Could not format " ++ path ++ ": " ++ msg], [(cmd, path)])
    | .ok c => (c, [], [(cmd, path)])

/-- One collected file after the optional beautify step. -/
def formatEntry (env : ToolEnv) (e : String × Option String) :
    (String × Option String) × List String × List (String × String) :=
  ((e.1, (format_code env e.1 e.2).1),
   (format_code env e.1 e.2).2.1, (format_code env e.1 e.2).2.2)

/-- The collection loop of `process_folder`: kept files in order with the text
an export-time read returns, plus formatter diagnostics and invocations.
`format_code` runs per kept file exactly when `beautify` is set. -/
def collect (env : ToolEnv) (beautify : Bool) (root : String) (ft : Option FSTree) :
    List (String × Option String) × List String × List (String × String) :=
  if beautify then
    ((pure_entries root ft).map (fun e => (formatEntry env e).1),
     (pure_entries root ft).flatMap (fun e => (formatEntry env e).2.1),
     (pure_entries root ft).flatMap (fun e => (formatEntry env e).2.2))
  else
    (pure_entries root ft, [], [])

/-- Model of `get_code(file_path)`: the loaded text, or `none` plus a printed
diagnostic when the read or decode raises (the exception text is abstracted:
it comes from the host). -/
def get_code (path : String) (content : Option String) : Option String × List String :=
  match content with
  | none => (none, ["Skipping " ++ path ++ " (read error)"])
  | some c => (some c, [])

/-- The text `txt_from_files` writes for one entry: Python `if code:` skips
both a failed read and empty text. -/
def txtSection (e : String × Option String) : String :=
  match (get_code e.1 e.2).1 with
  | none => ""
  | some code =>
    if code = "" then "" else "## " ++ e.1 ++ " ##\n" ++ code ++ "\n\n"

/-- Model of `txt_from_files`: the full text written to the output file, and the
diagnostics printed while reading. -/
def txt_from_files (entries : List (String × Option String)) : String × List String :=
  (String.join (entries.map txtSection), entries.flatMap (fun e => (get_code e.1 e.2).2))

/-- A reportlab story element as the code builds them: a styled paragraph, the
fixed spacer, or a page break. -/
inductive Flowable where
  | para (text : String) (style : String)
  | spacer
  | pageBreak
deriving DecidableEq, Repr

/-- The story elements `pdf_from_files` appends for one entry: nothing when
the read failed (`if code is None: continue`), otherwise a bold heading with
the path, a spacer, one code-style paragraph per line with spaces rendered as
`&nbsp;`, and a page break. -/
def pdfSection (e : String × Option String) : List Flowable :=
  match (get_code e.1 e.2).1 with
  | none => []
  | some code =>
    Flowable.para ("<b>" ++ e.1 ++ "</b>") "Heading3" :: Flowable.spacer ::
      ((splitLines code).map (fun line => Flowable.para (nbspLine line) "Code") ++
        [Flowable.pageBreak])

/-- Model of `pdf_from_files`: the built story, and the diagnostics printed while
reading. -/
def pdf_from_files (entries : List (String × Option String)) : List Flowable × List String :=
  (entries.flatMap pdfSection, entries.flatMap (fun e => (get_code e.1 e.2).2))

/-- An output document: a PDF story or a text file's contents. -/
inductive Document where
  | pdfDoc (story : List Flowable)
  | txtDoc (text : String)
deriving DecidableEq, Repr

/-- Model of `export_single(files, out_file, fmt)`: the document written, if any, with
the diagnostics printed; an unrecognized format writes nothing. -/
def export_single (entries : List (String × Option String)) (fmt : String) :
    Option (Document × List String) :=
  if fmt = "PDF" then some (Document.pdfDoc (pdf_from_files entries).1, (pdf_from_files entries).2)
  else if fmt = "TXT" then
    some (Document.txtDoc (txt_from_files entries).1, (txt_from_files entries).2)
  else none

/-- Everything one run of `process_folder` does: the output directory name,
the output files written in order, the diagnostics printed, and the external
formatter invocations performed. -/
structure RunResult where
  outputDir : String
  writes : List (String × Document)
  diags : List String
  invocations : List (String × String)
deriving Repr

/-- Model of `process_folder(folder, mode, fmt, beautify)` on filesystem `ft` under
host environment `env`. -/
def process_folder (env : ToolEnv) (folder mode fmt : String) (beautify : Bool)
    (ft : Option FSTree) : RunResult :=
  let outDir := lowerStr fmt ++ "_output"
  let c := collect env beautify folder ft
  if mode = "Single" then
    match export_single c.1 fmt with
    | some de => ⟨outDir, [("all_code." ++ lowerStr fmt, de.1)], c.2.1 ++ de.2, c.2.2⟩
    | none => ⟨outDir, [], c.2.1, c.2.2⟩
  else
    ⟨outDir,
     (c.1.map (fun e => (pyStem e.1 ++ "." ++ lowerStr fmt, export_single [e] fmt))).filterMap
       (fun o => o.2.map (fun de => (o.1, de.1))),
     c.2.1 ++ c.1.flatMap (fun e =>
       match export_single [e] fmt with
       | some de => de.2
       | none => []),
     c.2.2⟩

/-- The state of the output directory as a map from file name to contents:
writing an existing name with mode "w" replaces its contents. -/
def writeFile (dir : String → Option Document) (name : String) (d : Document) :
    String → Option Document :=
  fun n => if n = name then some d else dir n

/-- Directory state after a sequence of writes into an empty directory. -/
def applyWrites (ws : List (String × Document)) : String → Option Document :=
  List.foldl (fun acc w => writeFile acc w.1 w.2) (fun _ => none) ws

/-- Whether any external tool invocation of this run fails: the executable is
missing from the host, or it exits with a failure status. -/
def toolFails (o : ToolOutcome) : Prop :=
  o = ToolOutcome.notInstalled ∨ ∃ msg, o = ToolOutcome.failed msg

/-- Modelled from the spec: the Highlighter Adapter contract of section 4.4,
which `main.py` imports pygments for but never calls.  `detect` is the
language-detection-and-colorization service: given the file name hint and the
text it returns colorized lines on success and nothing when detection fails,
in which case the adapter must fall back to the unmodified text as plain
lines. -/
def spec_highlight (detect : String → String → Option (List String))
    (filename text : String) : List String :=
  match detect filename text with
  | some colored => colored
  | none => splitLines text

/-- Modelled from the spec: the story a spec-conforming pipeline would build
for one loaded file, rendering the lines the Highlighter Adapter returns. -/
def spec_pdfSection (detect : String → String → Option (List String))
    (e : String × Option String) : List Flowable :=
  match e.2 with
  | none => []
  | some code =>
    Flowable.para ("<b>" ++ e.1 ++ "</b>") "Heading3" :: Flowable.spacer ::
      ((spec_highlight detect e.1 code).map (fun l => Flowable.para (nbspLine l) "Code") ++
        [Flowable.pageBreak])

/-- A concrete filesystem used by witnesses: two directories, unsorted file
names, matching and non-matching extensions. -/
def exTree : FSTree :=
  FSTree.node
    [FileEntry.mk "x.py" (some "a=1"), FileEntry.mk "readme.md" (some "no"),
     FileEntry.mk "b.TXT" (some "hello")]
    (DirList.cons "sub"
      (FSTree.node [FileEntry.mk "z.c" (some "int x;"), FileEntry.mk "a.json" (some "null")]
        DirList.nil)
      DirList.nil)

/-- A host with no formatter installed at all. -/
def exEnvFail : ToolEnv := fun _ _ => ToolOutcome.notInstalled

/-- A filesystem whose only qualifying file is empty. -/
def exTreeEmptyFile : FSTree :=
  FSTree.node [FileEntry.mk "x.py" (some "")] DirList.nil

/-- A concrete detection service that succeeds and colorizes. -/
def exDetect : String → String → Option (List String) :=
  fun _ _ => some ["<span>colored</span>"]

example : pySorted ["b.py", "a.txt", "b.c"] = ["a.txt", "b.c", "b.py"] := by decide

example : matchesExt "b.TXT" = true := by decide

example : matchesExt "readme.md" = false := by decide

example : pySuffix "a/b/x.tar.gz" = ".gz" := by decide

example : pyStem "a/b/x.tar.gz" = "x.tar" := by decide

example : file_list "r" (some exTree) = ["r/b.TXT", "r/x.py", "r/sub/a.json", "r/sub/z.c"] := by
  decide

example :
    (process_folder exEnvFail "r" "Single" "TXT" false (some exTreeEmptyFile)).writes =
      [("all_code.txt", Document.txtDoc "")] := by decide

/-! ### Order bridge: the executable comparison agrees with the ambient order -/

theorem charsLe_iff (as bs : List Char) :
    charsLe as bs = true ↔ ¬ List.Lex (· < ·) bs as := by
  induction as generalizing bs with
  | nil =>
    refine iff_of_true rfl ?_
    intro h
    cases bs <;> cases h
  | cons a as ih =>
    cases bs with
    | nil =>
      refine iff_of_false (by simp [charsLe]) ?_
      intro h
      exact h (List.Lex.nil)
    | cons b bs =>
      rcases lt_trichotomy a b with h | h | h
      · refine iff_of_true (by simp [charsLe, h]) ?_
        intro hlex
        cases hlex with
        | cons h2 => exact lt_irrefl _ h
        | rel h2 => exact lt_asymm h h2
      · subst h
        have h1 : ¬ a < a := lt_irrefl a
        constructor
        · intro hc hlex
          have hc2 : charsLe as bs = true := by simpa [charsLe, h1] using hc
          cases hlex with
          | cons h2 => exact (ih bs).mp hc2 h2
          | rel h2 => exact h1 h2
        · intro hlex
          have : ¬ List.Lex (· < ·) bs as := fun h2 => hlex (List.Lex.cons h2)
          simpa [charsLe, h1] using (ih bs).mpr this
      · refine iff_of_false (by simp [charsLe, lt_asymm h, h]) ?_
        intro hlex
        exact hlex (List.Lex.rel h)

theorem strLe_iff (a b : String) : strLe a b = true ↔ a ≤ b := by
  rw [String.le_iff_toList_le]
  have h1 : (a.toList ≤ b.toList) ↔ ¬ b.toList < a.toList := not_lt.symm
  rw [h1]
  exact charsLe_iff a.data b.data

instance : IsTotal String (fun a b => strLe a b = true) := by
  constructor
  intro a b
  rw [strLe_iff, strLe_iff]
  exact le_total a b

instance : IsTrans String (fun a b => strLe a b = true) := by
  constructor
  intro a b c hab hbc
  rw [strLe_iff] at hab hbc ⊢
  exact le_trans hab hbc

theorem pySorted_sorted (l : List String) : List.Sorted (· ≤ ·) (pySorted l) :=
  (List.sorted_insertionSort _ l).imp (fun h => (strLe_iff _ _).mp h)

theorem pySorted_perm (l : List String) : List.Perm (pySorted l) l :=
  List.perm_insertionSort _ l

/-! ### Line splitting and joining -/

theorem splitLinesAux_append (xs ys acc : List Char) :
    splitLinesAux (xs ++ '\n' :: ys) acc = splitLinesAux xs acc ++ splitLinesAux ys [] := by
  induction xs generalizing acc with
  | nil => simp [splitLinesAux]
  | cons c rest ih =>
    by_cases hc : c = '\n' <;> simp [splitLinesAux, hc, ih]

theorem splitLines_append (a b : String) :
    splitLines (a ++ "\n" ++ b) = splitLines a ++ splitLines b := by
  have h : (a ++ "\n" ++ b).data = a.data ++ '\n' :: b.data := by
    simp [String.data_append]
  show splitLinesAux (a ++ "\n" ++ b).data [] = _
  rw [h]
  exact splitLinesAux_append a.data b.data []

theorem splitLinesAux_no_newline (xs : List Char) :
    ∀ acc, (∀ c ∈ xs, c ≠ '\n') → splitLinesAux xs acc = [String.mk (acc.reverse ++ xs)] := by
  induction xs with
  | nil => intro acc h; simp [splitLinesAux]
  | cons c rest ih =>
    intro acc h
    have hc : c ≠ '\n' := h c (List.mem_cons_self c rest)
    have hr : ∀ d ∈ rest, d ≠ '\n' := fun d hd => h d (List.mem_cons_of_mem c hd)
    simp [splitLinesAux, hc]
    rw [ih (c :: acc) hr]
    simp

theorem splitLines_no_newline (s : String) (h : ∀ c ∈ s.data, c ≠ '\n') :
    splitLines s = [s] := by
  show splitLinesAux s.data [] = [s]
  rw [splitLinesAux_no_newline s.data [] h]
  rfl

theorem join_foldl (s : String) (l : List String) :
    List.foldl (fun acc t => acc ++ t) s l = s ++ String.join l := by
  induction l generalizing s with
  | nil => simp [String.join]
  | cons t rest ih =>
    show List.foldl _ (s ++ t) rest = _
    rw [ih (s ++ t)]
    have h2 : String.join (t :: rest) = t ++ String.join rest := by
      show List.foldl _ ("" ++ t) rest = _
      rw [ih ("" ++ t)]
      simp
    rw [h2, String.append_assoc]

theorem join_append (l1 l2 : List String) :
    String.join (l1 ++ l2) = String.join l1 ++ String.join l2 := by
  show List.foldl _ "" (l1 ++ l2) = _
  rw [List.foldl_append]
  rw [join_foldl (List.foldl (fun acc t => acc ++ t) "" l1) l2]
  rfl

theorem join_cons (s : String) (l : List String) :
    String.join (s :: l) = s ++ String.join l := by
  show List.foldl _ ("" ++ s) l = _
  rw [join_foldl ("" ++ s) l]
  simp

/-! ### Plumbing lemmas for `process_folder` and the emitters -/

theorem process_folder_invocations (env : ToolEnv) (folder mode fmt : String) (b : Bool)
    (ft : Option FSTree) :
    (process_folder env folder mode fmt b ft).invocations = (collect env b folder ft).2.2 := by
  unfold process_folder
  by_cases hm : mode = "Single"
  · simp only [hm, if_pos]
    rcases hexp : export_single (collect env b folder ft).1 fmt with _ | de <;> simp [hexp]
  · simp [hm]

theorem process_folder_writes_congr (env1 env2 : ToolEnv) (b1 b2 : Bool)
    (folder mode fmt : String) (ft : Option FSTree)
    (h : (collect env1 b1 folder ft).1 = (collect env2 b2 folder ft).1) :
    (process_folder env1 folder mode fmt b1 ft).writes =
      (process_folder env2 folder mode fmt b2 ft).writes := by
  unfold process_folder
  by_cases hm : mode = "Single" <;> simp [hm, h]
  rcases hexp : export_single (collect env2 b2 folder ft).1 fmt with _ | de <;> simp [hexp]

theorem txt_text_append (xs ys : List (String × Option String)) :
    (txt_from_files (xs ++ ys)).1 = (txt_from_files xs).1 ++ (txt_from_files ys).1 := by
  simp [txt_from_files, List.map_append, join_append]

theorem txt_text_cons (e : String × Option String) (l : List (String × Option String)) :
    (txt_from_files (e :: l)).1 = txtSection e ++ (txt_from_files l).1 := by
  simp [txt_from_files, join_cons]

/-! ### Claim theorems -/

/-- C9: for an empty root directory or a nonexistent root path, the Collector
raises no error (it is total in the model, as `os.walk` yields nothing for a
missing root) and returns an empty file list. -/
theorem collector_empty_or_missing_root (root : String) :
    file_list root none = [] ∧ pure_entries root none = [] ∧
    file_list root (some (FSTree.node [] DirList.nil)) = [] ∧
    pure_entries root (some (FSTree.node [] DirList.nil)) = [] :=
  ⟨rfl, rfl, rfl, rfl⟩

/-- C7: with beautify disabled the run is a pure function of the tree - in
particular it does not depend on the external-tool environment, the only
source of nondeterminism in the model - so two runs with the same mode and
format on an unmodified tree produce identical results, including the
combined output document. -/
theorem pipeline_deterministic (env1 env2 : ToolEnv) (folder mode fmt : String)
    (ft : Option FSTree) :
    process_folder env1 folder mode fmt false ft = process_folder env2 folder mode fmt false ft :=
  rfl

/-- C8: with beautify disabled the run performs zero external formatter
invocations, and every collected file still carries its original content from
the tree (`pure_entries`), i.e. no source file is modified. -/
theorem beautify_off_frame (env : ToolEnv) (folder mode fmt : String) (ft : Option FSTree) :
    (process_folder env folder mode fmt false ft).invocations = [] ∧
    (collect env false folder ft).1 = pure_entries folder ft :=
  ⟨(process_folder_invocations env folder mode fmt false ft).trans rfl, rfl⟩

/-- C10: a file that loads as the empty string gets no delimiter line and no
section from the flat-text emitter - its truthiness check treats empty content
exactly like a failed load - while the PDF emitter still emits its heading,
spacer, one empty code line, and page break. -/
theorem empty_file_asymmetry (f : String) (xs ys : List (String × Option String)) :
    txtSection (f, some "") = "" ∧
    txtSection (f, none) = "" ∧
    (txt_from_files (xs ++ (f, some "") :: ys)).1 = (txt_from_files (xs ++ ys)).1 ∧
    pdfSection (f, some "") =
      [Flowable.para ("<b>" ++ f ++ "</b>") "Heading3", Flowable.spacer,
       Flowable.para "" "Code", Flowable.pageBreak] := by
  refine ⟨rfl, rfl, ?_, rfl⟩
  rw [txt_text_append, txt_text_append, txt_text_cons]
  show (txt_from_files xs).1 ++ ("" ++ (txt_from_files ys).1) = _
  simp

/-- C3, counterexample: the pipeline's PDF rendering of a loaded Python file
differs from what the spec's Highlighter Adapter contract produces under any
detection service that succeeds and colorizes - the code never consults one. -/
theorem highlighter_not_run_cex :
    spec_pdfSection exDetect ("r/x.py", some "a = 1") ≠ pdfSection ("r/x.py", some "a = 1") := by
  decide

/-- C3, amended: for every successfully loaded file the pipeline emits the
text as plain uncolored lines (spaces rendered as `&nbsp;`), identical to the
spec's detection-failure fallback; no language detection is attempted (the
pygments imports are unused), and no file is ever failed by this step. -/
theorem pdf_always_plain (e : String × Option String) :
    pdfSection e = spec_pdfSection (fun _ _ => none) e := by
  rcases e with ⟨f, c⟩
  cases c <;> rfl

/-- C4: a file whose read or decode fails yields `none` plus a printed
diagnostic from `get_code` rather than an exception, contributes no section to
either output document, and leaves every other file's sections intact. -/
theorem loader_failure_isolated (f : String) (xs ys : List (String × Option String)) :
    get_code f none = (none, ["Skipping " ++ f ++ " (read error)"]) ∧
    (txt_from_files (xs ++ (f, none) :: ys)).1 = (txt_from_files (xs ++ ys)).1 ∧
    (pdf_from_files (xs ++ (f, none) :: ys)).1 = (pdf_from_files (xs ++ ys)).1 ∧
    ("Skipping " ++ f ++ " (read error)") ∈ (txt_from_files (xs ++ (f, none) :: ys)).2 ∧
    ("Skipping " ++ f ++ " (read error)") ∈ (pdf_from_files (xs ++ (f, none) :: ys)).2 := by
  refine ⟨rfl, ?_, ?_, ?_, ?_⟩
  · rw [txt_text_append, txt_text_append, txt_text_cons]
    show (txt_from_files xs).1 ++ ("" ++ (txt_from_files ys).1) = _
    simp
  · simp [pdf_from_files, List.flatMap_append, pdfSection, get_code]
  · have h : (txt_from_files (xs ++ (f, none) :: ys)).2 =
        xs.flatMap (fun e => (get_code e.1 e.2).2) ++
          ("Skipping " ++ f ++ " (read error)") ::
            ys.flatMap (fun e => (get_code e.1 e.2).2) := by
      simp [txt_from_files, get_code]
    rw [h]
    exact List.mem_append_right _ (List.mem_cons_self _ _)
  · have h : (pdf_from_files (xs ++ (f, none) :: ys)).2 =
        xs.flatMap (fun e => (get_code e.1 e.2).2) ++
          ("Skipping " ++ f ++ " (read error)") ::
            ys.flatMap (fun e => (get_code e.1 e.2).2) := by
      simp [pdf_from_files, get_code]
    rw [h]
    exact List.mem_append_right _ (List.mem_cons_self _ _)

theorem splitLines_newline_cons (s : String) : splitLines ("\n" ++ s) = "" :: splitLines s := by
  show splitLinesAux ('\n' :: s.data) [] = _
  simp [splitLinesAux]
  rfl

/-- C6: per unit, the flat-text emitter writes the delimiter line
`## <label> ##`, then the raw content lines unchanged, then one blank line
before whatever follows; stated both as the exact text written and as the
resulting line decomposition. -/
theorem txt_emitter_layout (f c : String) (rest : List (String × Option String))
    (hf : ∀ ch ∈ f.data, ch ≠ '\n') (hc : c ≠ "") :
    (txt_from_files ((f, some c) :: rest)).1 =
      "## " ++ f ++ " ##\n" ++ c ++ "\n\n" ++ (txt_from_files rest).1 ∧
    splitLines ((txt_from_files ((f, some c) :: rest)).1) =
      ("## " ++ f ++ " ##") :: (splitLines c ++ "" :: splitLines ((txt_from_files rest).1)) := by
  have p1 : (" ##\n" : String) = " ##" ++ "\n" := rfl
  have p2 : ("\n\n" : String) = "\n" ++ "\n" := rfl
  have part1 : (txt_from_files ((f, some c) :: rest)).1 =
      "## " ++ f ++ " ##\n" ++ c ++ "\n\n" ++ (txt_from_files rest).1 := by
    rw [txt_text_cons]
    simp [txtSection, get_code, hc, String.append_assoc]
  refine ⟨part1, ?_⟩
  have key : (txt_from_files ((f, some c) :: rest)).1 =
      ("## " ++ f ++ " ##") ++ "\n" ++ (c ++ "\n" ++ ("\n" ++ (txt_from_files rest).1)) := by
    rw [part1, p1, p2]
    simp only [String.append_assoc]
  rw [key, splitLines_append, splitLines_append, splitLines_newline_cons]
  have l1 : ∀ ch ∈ ("## " : String).data, ch ≠ '\n' := by decide
  have l2 : ∀ ch ∈ (" ##" : String).data, ch ≠ '\n' := by decide
  have hA : ∀ ch ∈ ("## " ++ f ++ " ##").data, ch ≠ '\n' := by
    intro ch hch
    rw [String.data_append, String.data_append] at hch
    rcases List.mem_append.mp hch with h1 | h2
    · rcases List.mem_append.mp h1 with h3 | h4
      · exact l1 ch h3
      · exact hf ch h4
    · exact l2 ch h2
  rw [splitLines_no_newline _ hA]
  simp

theorem txt_emitter_layout_witness :
    (∀ ch ∈ ("a/x.py" : String).data, ch ≠ '\n') ∧ ("line1\nline2" : String) ≠ "" ∧
    ((txt_from_files ((("a/x.py", some "line1\nline2")) :: [("b/y.txt", some "hello")])).1 =
      "## " ++ "a/x.py" ++ " ##\n" ++ "line1\nline2" ++ "\n\n" ++
        (txt_from_files [("b/y.txt", some "hello")]).1 ∧
     splitLines ((txt_from_files ((("a/x.py", some "line1\nline2")) ::
         [("b/y.txt", some "hello")])).1) =
      ("## " ++ "a/x.py" ++ " ##") :: (splitLines "line1\nline2" ++
        "" :: splitLines ((txt_from_files [("b/y.txt", some "hello")]).1))) :=
  ⟨by decide, by decide,
   txt_emitter_layout "a/x.py" "line1\nline2" [("b/y.txt", some "hello")] (by decide) (by decide)⟩

theorem format_code_fail_unchanged (env : ToolEnv) (h : ∀ cmd p, toolFails (env cmd p))
    (p : String) (c : Option String) : (format_code env p c).1 = c := by
  unfold format_code
  rcases hf : formatterFor p with _ | cmd
  · rfl
  · rcases h cmd p with h1 | ⟨msg, h1⟩ <;> simp [h1]

theorem collect_fail_entries (env : ToolEnv) (h : ∀ cmd p, toolFails (env cmd p))
    (root : String) (ft : Option FSTree) :
    (collect env true root ft).1 = pure_entries root ft := by
  show (pure_entries root ft).map (fun e => (formatEntry env e).1) = pure_entries root ft
  have he : ∀ e ∈ pure_entries root ft, (formatEntry env e).1 = e := by
    intro e _
    show (e.1, (format_code env e.1 e.2).1) = e
    rw [format_code_fail_unchanged env h e.1 e.2]
  rw [List.map_congr_left he]
  exact List.map_id' (pure_entries root ft)

/-- C5: when the formatter executable selected by a file's extension group
(`.py` to black, `.c .h .cpp` to clang-format, `.yaml .yml .json` to prettier)
is missing from the host or exits with failure, `format_code` leaves the
file's content unchanged and prints a diagnostic, and the whole run writes
exactly what it would write with beautify disabled - the formatting step never
aborts the pipeline. -/
theorem formatter_failures_harmless (env : ToolEnv) (h : ∀ cmd p, toolFails (env cmd p)) :
    (∀ p c, (format_code env p c).1 = c) ∧
    (∀ p c cmd, formatterFor p = some cmd → (format_code env p c).2.1 ≠ []) ∧
    (∀ folder mode fmt ft, (process_folder env folder mode fmt true ft).writes =
        (process_folder env folder mode fmt false ft).writes) ∧
    formatterFor "a.py" = some "black" ∧ formatterFor "b.c" = some "clang-format" ∧
    formatterFor "b.h" = some "clang-format" ∧ formatterFor "b.cpp" = some "clang-format" ∧
    formatterFor "d.yaml" = some "prettier" ∧ formatterFor "d.yml" = some "prettier" ∧
    formatterFor "d.json" = some "prettier" ∧ formatterFor "e.java" = none ∧
    formatterFor "e.txt" = none := by
  refine ⟨format_code_fail_unchanged env h, ?_, ?_,
    by decide, by decide, by decide, by decide, by decide, by decide, by decide,
    by decide, by decide⟩
  · intro p c cmd hc
    unfold format_code
    rw [hc]
    rcases h cmd p with h1 | ⟨msg, h1⟩ <;> simp [h1]
  · intro folder mode fmt ft
    exact process_folder_writes_congr env env true false folder mode fmt ft
      ((collect_fail_entries env h folder ft).trans rfl)

theorem formatter_failures_harmless_witness :
    (∀ cmd p, toolFails (exEnvFail cmd p)) ∧
    (∀ p c, (format_code exEnvFail p c).1 = c) :=
  ⟨fun _ _ => Or.inl rfl,
   (formatter_failures_harmless exEnvFail (fun _ _ => Or.inl rfl)).1⟩

theorem foldl_writeFile (ws : List (String × Document)) :
    ∀ (F : String → Option Document) (n : String),
      List.foldl (fun acc w => writeFile acc w.1 w.2) F ws n =
        match ws.reverse.find? (fun w => w.1 == n) with
        | some w => some w.2
        | none => F n := by
  induction ws with
  | nil => intro F n; rfl
  | cons w rest ih =>
    intro F n
    show List.foldl _ (writeFile F w.1 w.2) rest n = _
    rw [ih (writeFile F w.1 w.2) n]
    rw [List.reverse_cons, List.find?_append]
    rcases hfind : rest.reverse.find? (fun x => x.1 == n) with _ | v
    · rw [hfind]
      by_cases hn : w.1 = n
      · simp [writeFile, hn, List.find?]
      · have hb : (w.1 == n) = false := beq_eq_false_iff_ne.mpr hn
        simp [writeFile, hn, List.find?, Ne.symm hn, hb]
    · rw [hfind]
      simp

theorem txt_text_filter (entries : List (String × Option String)) :
    (txt_from_files entries).1 =
      String.join ((entries.filter (fun e => e.2.getD "" != "")).map
        (fun e => "## " ++ e.1 ++ " ##\n" ++ e.2.getD "" ++ "\n\n")) := by
  induction entries with
  | nil => rfl
  | cons e rest ih =>
    rw [txt_text_cons, ih]
    rcases e with ⟨f, c⟩
    cases c with
    | none => simp [txtSection, get_code, List.filter_cons]
    | some s =>
      by_cases hs : s = ""
      · subst hs
        simp [txtSection, get_code, List.filter_cons]
      · simp [txtSection, get_code, hs, List.filter_cons, join_cons]

theorem pdf_story_filter (entries : List (String × Option String)) :
    (pdf_from_files entries).1 = (entries.filter (fun e => e.2.isSome)).flatMap pdfSection := by
  induction entries with
  | nil => rfl
  | cons e rest ih =>
    have hcons : (pdf_from_files (e :: rest)).1 = pdfSection e ++ (pdf_from_files rest).1 := by
      simp [pdf_from_files]
    rw [hcons, ih]
    rcases e with ⟨f, c⟩
    cases c with
    | none =>
      have h1 : pdfSection (f, none) = [] := rfl
      simp [h1, List.filter_cons]
    | some s => simp [List.filter_cons]

theorem filterMap_some_map {α β : Type} (g : α → β) (l : List α) :
    List.filterMap (fun e => some (g e)) l = List.map g l := by
  induction l with
  | nil => rfl
  | cons x xs ih => simp [List.filterMap_cons, ih]

theorem applyWrites_last_write_wins (ws : List (String × Document)) (n : String) :
    applyWrites ws n =
      match ws.reverse.find? (fun w => w.1 == n) with
      | some w => some w.2
      | none => none :=
  foldl_writeFile ws (fun _ => none) n

/-- C2, amended: combined mode produces exactly one output document, named
`all_code.<ext>`, containing - in Collector order - one labeled section for
each collected file that loads successfully (and, for the text format, is
nonempty); per-file mode produces exactly one output write per qualifying
file, in Collector order, named `<stem>.<ext>`; name collisions between files
sharing a base name are resolved last-write-wins in the output directory. -/
theorem export_modes_correct (env : ToolEnv) (folder : String) (b : Bool) (ft : Option FSTree)
    (mode : String) (hmode : mode ≠ "Single") :
    ((process_folder env folder "Single" "TXT" b ft).writes.map Prod.fst = ["all_code.txt"]) ∧
    ((process_folder env folder "Single" "PDF" b ft).writes.map Prod.fst = ["all_code.pdf"]) ∧
    ((process_folder env folder "Single" "TXT" b ft).writes =
       [("all_code.txt", Document.txtDoc (String.join
          (((collect env b folder ft).1.filter (fun e => e.2.getD "" != "")).map
            (fun e => "## " ++ e.1 ++ " ##\n" ++ e.2.getD "" ++ "\n\n"))))]) ∧
    ((process_folder env folder "Single" "PDF" b ft).writes =
       [("all_code.pdf", Document.pdfDoc
          (((collect env b folder ft).1.filter (fun e => e.2.isSome)).flatMap pdfSection))]) ∧
    ((process_folder env folder mode "TXT" b ft).writes =
       (collect env b folder ft).1.map (fun e =>
         (pyStem e.1 ++ ".txt", Document.txtDoc (txt_from_files [e]).1))) ∧
    ((process_folder env folder mode "PDF" b ft).writes =
       (collect env b folder ft).1.map (fun e =>
         (pyStem e.1 ++ ".pdf", Document.pdfDoc (pdf_from_files [e]).1))) ∧
    (∀ ws : List (String × Document), ∀ n, applyWrites ws n =
       match ws.reverse.find? (fun w => w.1 == n) with
       | some w => some w.2
       | none => none) := by
  have hlowT : lowerStr "TXT" = "txt" := by decide
  have hlowP : lowerStr "PDF" = "pdf" := by decide
  refine ⟨?_, ?_, ?_, ?_, ?_, ?_, fun ws n => applyWrites_last_write_wins ws n⟩
  · simp [process_folder, export_single, hlowT]
  · simp [process_folder, export_single, hlowP]
  · simp [process_folder, export_single, hlowT]
    exact txt_text_filter (collect env b folder ft).1
  · simp [process_folder, export_single, hlowP]
    exact pdf_story_filter (collect env b folder ft).1
  · simp [process_folder, export_single, hmode, hlowT, Function.comp_def, Option.map_some,
      filterMap_some_map]
    intro a c hac
    have hd : ("." ++ "txt" : String) = ".txt" := by decide
    rw [String.append_assoc, hd]
  · simp [process_folder, export_single, hmode, hlowP, Function.comp_def, Option.map_some,
      filterMap_some_map]
    intro a c hac
    have hd : ("." ++ "pdf" : String) = ".pdf" := by decide
    rw [String.append_assoc, hd]

/-- C2, counterexample: a tree with exactly one qualifying file whose content
is empty.  Combined text mode still writes exactly one `all_code.txt`, but the
document is empty: it does not contain a labeled section (delimited
`## <label> ##`) for the qualifying file, although N = 1. -/
theorem combined_sections_cex :
    (file_list "r" (some exTreeEmptyFile)).length = 1 ∧
    (process_folder exEnvFail "r" "Single" "TXT" false (some exTreeEmptyFile)).writes =
      [("all_code.txt", Document.txtDoc "")] ∧
    ¬ ∃ a b : String, "" = a ++ ("## " ++ "r/x.py" ++ " ##") ++ b := by
  refine ⟨by decide, by decide, ?_⟩
  rintro ⟨a, b, hab⟩
  have hlen := congrArg String.length hab
  have e0 : ("" : String).length = 0 := rfl
  have e1 : ("## " : String).length = 3 := rfl
  have e2 : ("r/x.py" : String).length = 6 := rfl
  have e3 : (" ##" : String).length = 3 := rfl
  simp only [String.length_append, e0, e1, e2, e3] at hlen
  omega

theorem export_modes_correct_witness :
    ("Separate" : String) ≠ "Single" ∧
    (process_folder exEnvFail "r" "Separate" "TXT" false (some exTree)).writes =
      (collect exEnvFail false "r" (some exTree)).1.map (fun e =>
        (pyStem e.1 ++ ".txt", Document.txtDoc (txt_from_files [e]).1)) :=
  ⟨by decide,
   (export_modes_correct exEnvFail "r" false (some exTree) "Separate" (by decide)).2.2.2.2.1⟩

/-! ### Infrastructure for the Collector claim: path injectivity -/

theorem nodupB_iff (l : List String) : nodupB l = true ↔ l.Nodup := by
  induction l with
  | nil => simp [nodupB]
  | cons n rest ih =>
    simp [nodupB, List.nodup_cons, ih, List.contains, List.elem_iff]

theorem validNameB_iff (n : String) :
    validNameB n = true ↔ n ≠ "" ∧ '/' ∉ n.data := by
  simp [validNameB, List.contains, List.elem_iff]

theorem str_length_pos (s : String) (h : s ≠ "") : 0 < s.length := by
  rcases s with ⟨d⟩
  cases d with
  | nil => exact absurd rfl h
  | cons c cs => simp [String.length]

theorem takeWhile_all_append (p : Char → Bool) (xs : List Char) (y : Char) (ys : List Char)
    (hx : ∀ x ∈ xs, p x = true) (hy : p y = false) :
    (xs ++ y :: ys).takeWhile p = xs := by
  induction xs with
  | nil => simp [List.takeWhile_cons, hy]
  | cons x xs ih =>
    have h1 : p x = true := hx x (List.mem_cons_self x xs)
    have h2 : ∀ z ∈ xs, p z = true := fun z hz => hx z (List.mem_cons_of_mem x hz)
    simp [List.takeWhile_cons, h1, ih h2]

theorem dropWhile_all_append (p : Char → Bool) (xs : List Char) (y : Char) (ys : List Char)
    (hx : ∀ x ∈ xs, p x = true) (hy : p y = false) :
    (xs ++ y :: ys).dropWhile p = y :: ys := by
  induction xs with
  | nil => simp [List.dropWhile_cons, hy]
  | cons x xs ih =>
    have h1 : p x = true := hx x (List.mem_cons_self x xs)
    have h2 : ∀ z ∈ xs, p z = true := fun z hz => hx z (List.mem_cons_of_mem x hz)
    simp [List.dropWhile_cons, h1, ih h2]

theorem split_last_eq {A B nd md : List Char}
    (hn : '/' ∉ nd) (hm : '/' ∉ md)
    (h : A ++ '/' :: nd = B ++ '/' :: md) : A = B ∧ nd = md := by
  have hrev := congrArg List.reverse h
  simp only [List.reverse_append, List.reverse_cons, List.append_assoc,
    List.singleton_append] at hrev
  have hnr : ∀ x ∈ nd.reverse, (x != '/') = true := by
    intro x hx
    have hmem : x ∈ nd := List.mem_reverse.mp hx
    exact bne_iff_ne.mpr (fun he => hn (he ▸ hmem))
  have hmr : ∀ x ∈ md.reverse, (x != '/') = true := by
    intro x hx
    have hmem : x ∈ md := List.mem_reverse.mp hx
    exact bne_iff_ne.mpr (fun he => hm (he ▸ hmem))
  have hslash : (('/' : Char) != '/') = false := by decide
  have ht := congrArg (List.takeWhile (fun c => c != '/')) hrev
  rw [takeWhile_all_append _ nd.reverse '/' A.reverse hnr hslash,
    takeWhile_all_append _ md.reverse '/' B.reverse hmr hslash] at ht
  have hd := congrArg (List.dropWhile (fun c => c != '/')) hrev
  rw [dropWhile_all_append _ nd.reverse '/' A.reverse hnr hslash,
    dropWhile_all_append _ md.reverse '/' B.reverse hmr hslash] at hd
  injection hd with hd1 hd2
  exact ⟨List.reverse_injective hd2, List.reverse_injective ht⟩

theorem joinDirs_append_singleton (root : String) (ds : List String) (d : String) :
    joinDirs root (ds ++ [d]) = joinDirs root ds ++ "/" ++ d := by
  simp [joinDirs, List.foldl_append]

theorem joinDirs_length_ge (root : String) (ds : List String) :
    root.length ≤ (joinDirs root ds).length := by
  induction ds generalizing root with
  | nil => exact le_refl _
  | cons d ds ih =>
    have h1 : root.length ≤ (root ++ "/" ++ d).length := by
      rw [String.length_append, String.length_append]
      omega
    exact le_trans h1 (ih (root ++ "/" ++ d))

theorem string_data_inj {a b : String} (h : a.data = b.data) : a = b :=
  String.toList_inj.mp h

theorem joinDirs_data_snoc (root : String) (ds : List String) (d : String) :
    (joinDirs root (ds ++ [d])).data = (joinDirs root ds).data ++ '/' :: d.data := by
  rw [joinDirs_append_singleton]
  have hslashdata : ("/" : String).data = ['/'] := rfl
  simp [String.data_append, hslashdata]

theorem joinDirs_inj (root : String) (ds : List String) :
    ∀ es, (∀ d ∈ ds, d ≠ "" ∧ '/' ∉ d.data) → (∀ e ∈ es, e ≠ "" ∧ '/' ∉ e.data) →
      joinDirs root ds = joinDirs root es → ds = es := by
  induction ds using List.reverseRecOn with
  | nil =>
    intro es hds hes heq
    rcases List.eq_nil_or_concat es with he | ⟨L, b, he⟩
    · exact he.symm
    · exfalso
      subst he
      rw [List.concat_eq_append] at heq hes
      have h0 : joinDirs root ([] : List String) = root := rfl
      rw [h0] at heq
      have hb := hes b (List.mem_append_right L (List.mem_singleton_self b))
      have hlen := congrArg String.length heq
      rw [joinDirs_append_singleton, String.length_append, String.length_append] at hlen
      have h1 := joinDirs_length_ge root L
      have h2 := str_length_pos b hb.1
      have h3 : ("/" : String).length = 1 := rfl
      rw [h3] at hlen
      omega
  | append_singleton ds d ih =>
    intro es hds hes heq
    rcases List.eq_nil_or_concat es with he | ⟨L, b, he⟩
    · exfalso
      subst he
      have h0 : joinDirs root ([] : List String) = root := rfl
      rw [h0] at heq
      have hd := hds d (List.mem_append_right ds (List.mem_singleton_self d))
      have hlen := congrArg String.length heq
      rw [joinDirs_append_singleton, String.length_append, String.length_append] at hlen
      have h1 := joinDirs_length_ge root ds
      have h2 := str_length_pos d hd.1
      have h3 : ("/" : String).length = 1 := rfl
      rw [h3] at hlen
      omega
    · subst he
      rw [List.concat_eq_append] at heq hes
      have hd := hds d (List.mem_append_right ds (List.mem_singleton_self d))
      have hb := hes b (List.mem_append_right L (List.mem_singleton_self b))
      have hdata := congrArg String.data heq
      rw [joinDirs_data_snoc, joinDirs_data_snoc] at hdata
      obtain ⟨h1, h2⟩ := split_last_eq hd.2 hb.2 hdata
      have hds' : ∀ x ∈ ds, x ≠ "" ∧ '/' ∉ x.data :=
        fun x hx => hds x (List.mem_append_left [d] hx)
      have hes' : ∀ x ∈ L, x ≠ "" ∧ '/' ∉ x.data :=
        fun x hx => hes x (List.mem_append_left [b] hx)
      have hdsL : ds = L := ih L hds' hes' (string_data_inj h1)
      have hdb : d = b := string_data_inj h2
      rw [hdsL, hdb, List.concat_eq_append]

theorem joinPath_inj (root : String) {ds es : List String} {n m : String}
    (hds : ∀ d ∈ ds, d ≠ "" ∧ '/' ∉ d.data) (hes : ∀ e ∈ es, e ≠ "" ∧ '/' ∉ e.data)
    (hn : '/' ∉ n.data) (hm : '/' ∉ m.data)
    (h : joinPath root ds n = joinPath root es m) : ds = es ∧ n = m := by
  have hdata := congrArg String.data h
  have hslashdata : ("/" : String).data = ['/'] := rfl
  unfold joinPath at hdata
  rw [String.data_append, String.data_append, String.data_append, String.data_append,
    hslashdata] at hdata
  simp only [List.append_assoc, List.singleton_append] at hdata
  obtain ⟨h1, h2⟩ := split_last_eq hn hm hdata
  have hjoin : joinDirs root ds = joinDirs root es := string_data_inj h1
  exact ⟨joinDirs_inj root ds es hds hes hjoin, string_data_inj h2⟩

mutual

theorem treeFiles_valid (t : FSTree) (h : WFb t = true) :
    ∀ e ∈ treeFiles t, (e.2.name ≠ "" ∧ '/' ∉ e.2.name.data) ∧
      ∀ d ∈ e.1, d ≠ "" ∧ '/' ∉ d.data := by
  cases t with
  | node files subs =>
    simp only [WFb, Bool.and_eq_true] at h
    obtain ⟨⟨⟨hnf, hnd⟩, hall⟩, hsubs⟩ := h
    intro e he
    simp only [treeFiles] at he
    rcases List.mem_append.mp he with h1 | h2
    · obtain ⟨fe, hfe, rfl⟩ := List.mem_map.mp h1
      refine ⟨?_, by intro d hd; exact absurd hd (List.not_mem_nil d)⟩
      have hv : validNameB fe.name = true :=
        List.all_eq_true.mp hall fe.name (List.mem_map.mpr ⟨fe, hfe, rfl⟩)
      exact (validNameB_iff fe.name).mp hv
    · exact dirFiles_valid subs hsubs e h2

theorem dirFiles_valid (l : DirList) (h : WFbDirs l = true) :
    ∀ e ∈ dirFiles l, (e.2.name ≠ "" ∧ '/' ∉ e.2.name.data) ∧
      ∀ d ∈ e.1, d ≠ "" ∧ '/' ∉ d.data := by
  cases l with
  | nil =>
    intro e he
    simp only [dirFiles] at he
    exact absurd he (List.not_mem_nil e)
  | cons n t rest =>
    simp only [WFbDirs, Bool.and_eq_true] at h
    obtain ⟨⟨hn, ht⟩, hrest⟩ := h
    intro e he
    simp only [dirFiles] at he
    rcases List.mem_append.mp he with h1 | h2
    · obtain ⟨e', he', rfl⟩ := List.mem_map.mp h1
      have hv := treeFiles_valid t ht e' he'
      refine ⟨hv.1, ?_⟩
      intro d hd
      rcases List.mem_cons.mp hd with rfl | hd2
      · exact (validNameB_iff d).mp hn
      · exact hv.2 d hd2
    · exact dirFiles_valid rest hrest e h2

end

mutual

theorem treeFiles_keys_nodup (t : FSTree) (h : WFb t = true) :
    ((treeFiles t).map (fun e => (e.1, e.2.name))).Nodup := by
  cases t with
  | node files subs =>
    simp only [WFb, Bool.and_eq_true] at h
    obtain ⟨⟨⟨hnf, hnd⟩, hall⟩, hsubs⟩ := h
    have ihdirs := dirFiles_keys_nodup subs hsubs ((nodupB_iff _).mp hnd)
    rw [treeFiles, List.map_append, List.nodup_append]
    refine ⟨?_, ihdirs.1, ?_⟩
    · rw [List.map_map]
      have h2 : files.map ((fun e : List String × FileEntry => (e.1, e.2.name)) ∘
            (fun fe => (([] : List String), fe))) =
          (files.map FileEntry.name).map (fun nm => (([] : List String), nm)) := by
        rw [List.map_map]
        exact List.map_congr_left (fun x _ => rfl)
      rw [h2]
      refine ((nodupB_iff _).mp hnf).map ?_
      intro a b hab
      exact (Prod.mk.injEq _ _ _ _).mp hab |>.2
    · intro k hk1 hk2
      obtain ⟨e, he, rfl⟩ := List.mem_map.mp hk1
      obtain ⟨fe, hfe, rfl⟩ := List.mem_map.mp he
      obtain ⟨e2, he2, hke⟩ := List.mem_map.mp hk2
      obtain ⟨n2, ds2, h4, _⟩ := ihdirs.2 e2 he2
      have h5 := congrArg Prod.fst hke
      rw [h4] at h5
      exact absurd h5 (List.cons_ne_nil n2 ds2)

theorem dirFiles_keys_nodup (l : DirList) (h : WFbDirs l = true)
    (hnd : (dirNames l).Nodup) :
    ((dirFiles l).map (fun e => (e.1, e.2.name))).Nodup ∧
    ∀ e ∈ dirFiles l, ∃ n ds, e.1 = n :: ds ∧ n ∈ dirNames l := by
  cases l with
  | nil =>
    constructor
    · simp [dirFiles]
    · intro e he
      simp only [dirFiles] at he
      exact absurd he (List.not_mem_nil e)
  | cons n t rest =>
    simp only [WFbDirs, Bool.and_eq_true] at h
    obtain ⟨⟨hn, ht⟩, hrest⟩ := h
    simp only [dirNames] at hnd
    have hnotin : n ∉ dirNames rest := (List.nodup_cons.mp hnd).1
    have hndrest : (dirNames rest).Nodup := (List.nodup_cons.mp hnd).2
    have ihrest := dirFiles_keys_nodup rest hrest hndrest
    have ihtree := treeFiles_keys_nodup t ht
    constructor
    · rw [dirFiles, List.map_append, List.nodup_append]
      refine ⟨?_, ihrest.1, ?_⟩
      · rw [List.map_map]
        have h2 : (treeFiles t).map ((fun e : List String × FileEntry => (e.1, e.2.name)) ∘
              (fun e : List String × FileEntry => (n :: e.1, e.2))) =
            ((treeFiles t).map (fun e => (e.1, e.2.name))).map (fun k => (n :: k.1, k.2)) := by
          rw [List.map_map]
          exact List.map_congr_left (fun x _ => rfl)
        rw [h2]
        refine ihtree.map ?_
        intro a b hab
        have h5 := congrArg Prod.fst hab
        have h6 := congrArg Prod.snd hab
        simp only at h5 h6
        have h7 := (List.cons.injEq n a.1 n b.1).mp h5
        exact Prod.ext h7.2 h6
      · intro k hk1 hk2
        obtain ⟨e, he, rfl⟩ := List.mem_map.mp hk1
        obtain ⟨e', he', rfl⟩ := List.mem_map.mp he
        obtain ⟨e2, he2, hke⟩ := List.mem_map.mp hk2
        obtain ⟨n2, ds2, h4, hn2⟩ := ihrest.2 e2 he2
        have h5 := congrArg Prod.fst hke
        rw [h4] at h5
        have h6 := (List.cons.injEq n2 ds2 n _).mp h5
        rw [h6.1] at hn2
        exact hnotin hn2
    · intro e he
      simp only [dirFiles] at he
      rcases List.mem_append.mp he with h1 | h2
      · obtain ⟨e', he', rfl⟩ := List.mem_map.mp h1
        exact ⟨n, e'.1, rfl, by simp [dirNames]⟩
      · obtain ⟨n', ds, hds, hn'⟩ := ihrest.2 e h2
        refine ⟨n', ds, hds, ?_⟩
        simp only [dirNames, List.mem_cons]
        exact Or.inr hn'

end

theorem dirFileNames_perm (files : List FileEntry) :
    List.Perm (dirFileNames files)
      ((files.map FileEntry.name).filter (fun n => matchesExt n)) :=
  List.Perm.filter _ (pySorted_perm (files.map FileEntry.name))

theorem dir_chunk_perm (root : String) (files : List FileEntry) :
    List.Perm ((dirFileNames files).map (fun n => root ++ "/" ++ n))
      (((files.map (fun fe => (([] : List String), fe))).filter
        (fun e => matchesExt e.2.name)).map (fun e => joinPath root e.1 e.2.name)) := by
  have h1 := (dirFileNames_perm files).map (fun n => root ++ "/" ++ n)
  have h2 : (((files.map (fun fe => (([] : List String), fe))).filter
        (fun e => matchesExt e.2.name)).map (fun e => joinPath root e.1 e.2.name)) =
      ((files.map FileEntry.name).filter (fun n => matchesExt n)).map
        (fun n => root ++ "/" ++ n) := by
    rw [List.filter_map, List.filter_map, List.map_map, List.map_map]
    rfl
  rw [h2]
  exact h1

mutual

theorem walk_files_perm (root : String) (t : FSTree) :
    List.Perm
      ((walk root t).flatMap (fun q => (dirFileNames q.2).map (fun n => q.1 ++ "/" ++ n)))
      (((treeFiles t).filter (fun e => matchesExt e.2.name)).map
        (fun e => joinPath root e.1 e.2.name)) := by
  cases t with
  | node files subs =>
    simp only [walk, treeFiles, List.flatMap_cons, List.filter_append, List.map_append]
    exact List.Perm.append (dir_chunk_perm root files) (walkDirs_files_perm root subs)

theorem walkDirs_files_perm (root : String) (l : DirList) :
    List.Perm
      ((walkDirs root l).flatMap (fun q => (dirFileNames q.2).map (fun n => q.1 ++ "/" ++ n)))
      (((dirFiles l).filter (fun e => matchesExt e.2.name)).map
        (fun e => joinPath root e.1 e.2.name)) := by
  cases l with
  | nil => simp [walkDirs, dirFiles]
  | cons n t rest =>
    simp only [walkDirs, dirFiles, List.flatMap_append, List.filter_append, List.map_append]
    refine List.Perm.append ?_ (walkDirs_files_perm root rest)
    have h1 := walk_files_perm (root ++ "/" ++ n) t
    have h2 : (((treeFiles t).map (fun e => (n :: e.1, e.2))).filter
          (fun e => matchesExt e.2.name)).map (fun e => joinPath root e.1 e.2.name) =
        ((treeFiles t).filter (fun e => matchesExt e.2.name)).map
          (fun e => joinPath (root ++ "/" ++ n) e.1 e.2.name) := by
      rw [List.filter_map, List.map_map]
      rfl
    rw [h2]
    exact h1

end

theorem file_list_eq (root : String) (ft : Option FSTree) :
    file_list root ft = (os_walk root ft).flatMap
      (fun q => (dirFileNames q.2).map (fun n => q.1 ++ "/" ++ n)) := by
  simp [file_list, pure_entries, List.map_flatMap, List.map_map, Function.comp_def]

/-- C1: on a well-formed tree (distinct valid entry names per directory, as on
a real filesystem), the Collector's output is exactly the set of paths of
regular files under the root whose extension matches the allow-list
case-insensitively (stated as a permutation with the specification-side file
enumeration `treeFiles`), with no duplicates, and within each visited
directory the kept file names are in sorted order. -/
theorem collector_correct (root : String) (t : FSTree) (hwf : WFb t = true) :
    List.Perm (file_list root (some t))
      (((treeFiles t).filter (fun e => matchesExt e.2.name)).map
        (fun e => joinPath root e.1 e.2.name)) ∧
    (file_list root (some t)).Nodup ∧
    ∀ q ∈ os_walk root (some t), List.Sorted (· ≤ ·) (dirFileNames q.2) := by
  have hperm : List.Perm (file_list root (some t))
      (((treeFiles t).filter (fun e => matchesExt e.2.name)).map
        (fun e => joinPath root e.1 e.2.name)) := by
    rw [file_list_eq]
    exact walk_files_perm root t
  refine ⟨hperm, ?_, ?_⟩
  · have hvalid := treeFiles_valid t hwf
    have hkeys := treeFiles_keys_nodup t hwf
    have hfilterkeys : (((treeFiles t).filter (fun e => matchesExt e.2.name)).map
        (fun e => (e.1, e.2.name))).Nodup :=
      List.Nodup.sublist (List.Sublist.map _ (List.filter_sublist _)) hkeys
    have hspec : (((treeFiles t).filter (fun e => matchesExt e.2.name)).map
        (fun e => joinPath root e.1 e.2.name)).Nodup := by
      have hrw : ((treeFiles t).filter (fun e => matchesExt e.2.name)).map
          (fun e => joinPath root e.1 e.2.name) =
        (((treeFiles t).filter (fun e => matchesExt e.2.name)).map
          (fun e => (e.1, e.2.name))).map (fun k => joinPath root k.1 k.2) := by
        rw [List.map_map]
        rfl
      rw [hrw]
      refine List.Nodup.map_on ?_ hfilterkeys
      intro x hx y hy hxy
      obtain ⟨e1, he1, rfl⟩ := List.mem_map.mp hx
      obtain ⟨e2, he2, rfl⟩ := List.mem_map.mp hy
      have hv1 := hvalid e1 (List.mem_of_mem_filter he1)
      have hv2 := hvalid e2 (List.mem_of_mem_filter he2)
      obtain ⟨hds, hnm⟩ := joinPath_inj root hv1.2 hv2.2 hv1.1.2 hv2.1.2 hxy
      exact Prod.ext hds hnm
    exact hperm.symm.nodup hspec
  · intro q hq
    exact List.Pairwise.filter _ (pySorted_sorted (q.2.map FileEntry.name))

theorem collector_correct_witness :
    WFb exTree = true ∧
    (List.Perm (file_list "root" (some exTree))
      (((treeFiles exTree).filter (fun e => matchesExt e.2.name)).map
        (fun e => joinPath "root" e.1 e.2.name)) ∧
     (file_list "root" (some exTree)).Nodup ∧
     ∀ q ∈ os_walk "root" (some exTree), List.Sorted (· ≤ ·) (dirFileNames q.2)) :=
  ⟨by decide, collector_correct "root" exTree (by decide)⟩
